import Mathlib

/-!
Verification of the safekeeper WAL broadcast proxy and WAL re-streamer
(`src/bin/safekeeper/safekeeper_proxy.c`, `src/bin/safekeeper/utils.c`,
`src/bin/safekeeper/walsender.c`).

The development shallowly embeds the data model and the operations of the
proxy: LSNs are `Nat` (64-bit log positions), node identifiers are pairs of a
term and a 16-byte uuid, the per-peer session and the in-flight message queue
become explicit state, and the event loop becomes an inductive step relation.
-/

namespace SafekeeperProxy

/-! ## NodeId and CompareNodeId (utils.c) -/

/-- A `NodeId`: pair of a 64-bit term and a 16-byte uuid. -/
structure NodeId where
  term : Nat
  uuid : List Nat
deriving DecidableEq, Repr

/-- Lexicographic byte comparison, the semantics of `memcmp` on two buffers
read byte by byte (bytes are unsigned). Returns a negative, zero or positive
integer. -/
def memcmpBytes : List Nat → List Nat → Int
  | [], [] => 0
  | [], _ :: _ => -1
  | _ :: _, [] => 1
  | a :: as, b :: bs =>
    if a < b then -1
    else if b < a then 1
    else memcmpBytes as bs

/-- Embedding of `CompareNodeId` from `utils.c`. The source compares the
terms first and then calls `memcmp(&id1->uuid, &id1->uuid, sizeof(pg_uuid_t))`
- the second argument is `id1->uuid` again, so the byte comparison is of
`id1.uuid` with itself. -/
def CompareNodeId (id1 id2 : NodeId) : Int :=
  if id1.term < id2.term then -1
  else if id2.term < id1.term then 1
  else memcmpBytes id1.uuid id1.uuid

/-- C3: the code violates the claim. With equal terms and two distinct uuids
(`0x00...` vs `0x01 0x00...`), `CompareNodeId` returns 0, although the
lexicographic comparison of the two distinct uuids is negative; the uuid of
the second argument is ignored entirely. -/
theorem CompareNodeId_ignores_second_uuid :
    CompareNodeId ⟨7, List.replicate 16 0⟩ ⟨7, 1 :: List.replicate 15 0⟩ = 0 ∧
    memcmpBytes (List.replicate 16 0) (1 :: List.replicate 15 0) < 0 := by
  constructor
  · rfl
  · decide

/-! ## CompareLsn, qsort and GetAcknowledgedWALPosition (quorum_lsn) -/

/-- Embedding of `CompareLsn` from `utils.c`: a descending-order comparator
(`lsn1 > lsn2` sorts first). -/
def CompareLsn (lsn1 lsn2 : Nat) : Int :=
  if lsn2 < lsn1 then -1
  else if lsn1 = lsn2 then 0
  else 1

/-- Insertion of one element into a list that is sorted according to
`CompareLsn` (non-increasing). -/
def insertDesc (x : Nat) : List Nat → List Nat
  | [] => [x]
  | y :: ys => if CompareLsn x y < 0 then x :: y :: ys else y :: insertDesc x ys

/-- Model of `qsort(responses, n, sizeof(XLogRecPtr), CompareLsn)`: a sort of
the list into non-increasing order, realised as insertion sort. `qsort` is
only specified up to the comparator, and `CompareLsn` yields a descending
order on values, so any correct `qsort` produces this list. -/
def sortDesc : List Nat → List Nat
  | [] => []
  | x :: xs => insertDesc x (sortDesc xs)

/-- Embedding of `GetAcknowledgedWALPosition` from `safekeeper_proxy.c`
(the spec's `quorum_lsn()`): sort the `ackPos` vector descending and return
`responses[n_safekeepers - quorum]`. -/
def GetAcknowledgedWALPosition (acks : List Nat) (quorum : Nat) : Nat :=
  (sortDesc acks).getD (acks.length - quorum) 0

/-- C2 counterexample: with N = 4 and Q = 4 (a legal quorum:
`floor(4/2)+1 = 3 ≤ 4 ≤ 4`) and acks `[0,0,0,10]`, the code returns the
`(N-Q+1)`-th largest element, 10, yet only one peer (fewer than Q) has
`ackPos ≥ 10`; the claim's gloss "the highest LSN that at least Q of the N
peers have confirmed" (which is 0 here) fails. -/
theorem GetAcknowledgedWALPosition_not_confirmed_by_quorum :
    GetAcknowledgedWALPosition [0, 0, 0, 10] 4 = 10 ∧
    List.countP (fun a => decide (10 ≤ a)) [0, 0, 0, 10] < 4 := by
  decide

/-! ## StartReplication start position (safekeeper_proxy.c) -/

/-- Embedding of `XLogSegmentOffset(pos, segSize)`: the offset of an LSN
inside its segment. -/
def XLogSegmentOffset (pos segSize : Nat) : Nat := pos % segSize

/-- Embedding of the start-position computation in `StartReplication`:
`startpos = GetAcknowledgedWALPosition(); if (startpos == 0) startpos =
serverInfo.walEnd; startpos -= XLogSegmentOffset(startpos, walSegSize);`. -/
def StartReplicationStartpos (acks : List Nat) (quorum serverWalEnd segSize : Nat) : Nat :=
  let startpos := GetAcknowledgedWALPosition acks quorum
  let startpos := if startpos = 0 then serverWalEnd else startpos
  startpos - XLogSegmentOffset startpos segSize

/-- The start position as the claim states it: the maximum of `quorum_lsn()`
and `serverInfo.walEnd`, rounded down to a segment boundary. -/
def StartReplicationStartposClaimed (acks : List Nat) (quorum serverWalEnd segSize : Nat) : Nat :=
  let startpos := max (GetAcknowledgedWALPosition acks quorum) serverWalEnd
  startpos - XLogSegmentOffset startpos segSize

/-- C1 counterexample: with three peers all acknowledging LSN 50, quorum 2,
server `walEnd` 100 and segment size 16, the code starts at `50 - 50 mod 16 =
48`, while the claimed `max(quorum_lsn(), walEnd)` rule gives `100 - 100 mod
16 = 96`. The code falls back to `serverInfo.walEnd` only when `quorum_lsn()`
is exactly 0; it never takes a maximum. -/
theorem StartReplicationStartpos_not_max :
    StartReplicationStartpos [50, 50, 50] 2 100 16 = 48 ∧
    StartReplicationStartposClaimed [50, 50, 50] 2 100 16 = 96 ∧
    StartReplicationStartpos [50, 50, 50] 2 100 16 ≠
      StartReplicationStartposClaimed [50, 50, 50] 2 100 16 := by
  decide

/-- C1 (amended): the stream starts at `quorum_lsn()` when it is nonzero and
at `serverInfo.walEnd` otherwise, rounded down to a segment boundary; in
particular the start position is segment-aligned. -/
theorem StartReplicationStartpos_spec (acks : List Nat) (quorum serverWalEnd segSize : Nat)
    (hseg : 0 < segSize) :
    StartReplicationStartpos acks quorum serverWalEnd segSize % segSize = 0 ∧
    StartReplicationStartpos acks quorum serverWalEnd segSize =
      (if GetAcknowledgedWALPosition acks quorum = 0 then serverWalEnd
       else GetAcknowledgedWALPosition acks quorum) -
      (if GetAcknowledgedWALPosition acks quorum = 0 then serverWalEnd
       else GetAcknowledgedWALPosition acks quorum) % segSize := by
  refine ⟨?_, rfl⟩
  unfold StartReplicationStartpos XLogSegmentOffset
  set p := if GetAcknowledgedWALPosition acks quorum = 0 then serverWalEnd
           else GetAcknowledgedWALPosition acks quorum with hp
  have h := Nat.div_add_mod p segSize
  have : p - p % segSize = segSize * (p / segSize) := by omega
  rw [this]
  exact Nat.mul_mod_right _ _

/-- C1 witness input: acks `[50,50,50]`, quorum 2, walEnd 100, segment 16. -/
theorem StartReplicationStartpos_spec_witness :
    StartReplicationStartpos [50, 50, 50] 2 100 16 % 16 = 0 ∧
    StartReplicationStartpos [50, 50, 50] 2 100 16 =
      (if GetAcknowledgedWALPosition [50, 50, 50] 2 = 0 then 100
       else GetAcknowledgedWALPosition [50, 50, 50] 2) -
      (if GetAcknowledgedWALPosition [50, 50, 50] 2 = 0 then 100
       else GetAcknowledgedWALPosition [50, 50, 50] 2) % 16 :=
  StartReplicationStartpos_spec [50, 50, 50] 2 100 16 (by decide)

/-! ## Order-statistic characterisation of the quorum LSN -/

theorem insertDesc_length (x : Nat) (l : List Nat) :
    (insertDesc x l).length = l.length + 1 := by
  induction l with
  | nil => rfl
  | cons y ys ih =>
    unfold insertDesc
    by_cases h : CompareLsn x y < 0 <;> simp [h, ih]

theorem sortDesc_length (l : List Nat) : (sortDesc l).length = l.length := by
  induction l with
  | nil => rfl
  | cons x xs ih => simp [sortDesc, insertDesc_length, ih]

theorem countP_insertDesc (p : Nat → Bool) (x : Nat) (l : List Nat) :
    (insertDesc x l).countP p = (x :: l).countP p := by
  induction l with
  | nil => rfl
  | cons y ys ih =>
    unfold insertDesc
    by_cases h : CompareLsn x y < 0
    · rw [if_pos h]
    · rw [if_neg h, List.countP_cons, ih, List.countP_cons, List.countP_cons,
        List.countP_cons]
      omega

theorem countP_sortDesc (p : Nat → Bool) (l : List Nat) :
    (sortDesc l).countP p = l.countP p := by
  induction l with
  | nil => rfl
  | cons x xs ih => rw [sortDesc, countP_insertDesc, List.countP_cons, List.countP_cons, ih]

theorem mem_insertDesc {y x : Nat} {l : List Nat} :
    y ∈ insertDesc x l ↔ y = x ∨ y ∈ l := by
  induction l with
  | nil => simp [insertDesc]
  | cons z zs ih =>
    unfold insertDesc
    by_cases h : CompareLsn x z < 0
    · rw [if_pos h]
      simp [List.mem_cons]
    · rw [if_neg h]
      simp only [List.mem_cons, ih]
      tauto

theorem compareLsn_neg_iff {x y : Nat} : CompareLsn x y < 0 ↔ y < x := by
  unfold CompareLsn
  by_cases h1 : y < x
  · simp [h1]
  · by_cases h2 : x = y <;> simp [h1, h2]

theorem pairwise_ge_insertDesc {x : Nat} {l : List Nat}
    (h : List.Pairwise (fun a b : Nat => b ≤ a) l) :
    List.Pairwise (fun a b : Nat => b ≤ a) (insertDesc x l) := by
  induction l with
  | nil => simp [insertDesc]
  | cons z zs ih =>
    rw [List.pairwise_cons] at h
    unfold insertDesc
    by_cases hc : CompareLsn x z < 0
    · have hzx : z < x := compareLsn_neg_iff.mp hc
      simp only [if_pos hc]
      rw [List.pairwise_cons]
      refine ⟨?_, List.pairwise_cons.mpr h⟩
      intro b hb
      rcases List.mem_cons.mp hb with rfl | hb
      · omega
      · have := h.1 b hb
        omega
    · have hxz : ¬ z < x := fun hlt => hc (compareLsn_neg_iff.mpr hlt)
      simp only [if_neg hc]
      rw [List.pairwise_cons]
      refine ⟨?_, ih h.2⟩
      intro b hb
      rcases mem_insertDesc.mp hb with hb | hb
      · omega
      · exact h.1 b hb

theorem pairwise_ge_sortDesc (l : List Nat) :
    List.Pairwise (fun a b : Nat => b ≤ a) (sortDesc l) := by
  induction l with
  | nil => exact List.Pairwise.nil
  | cons x xs ih => exact pairwise_ge_insertDesc ih

theorem getD_mem_of_lt {α : Type} (l : List α) (i : Nat) (d : α) (h : i < l.length) :
    l.getD i d ∈ l := by
  induction l generalizing i with
  | nil => simp at h
  | cons x t ih =>
    cases i with
    | zero => exact List.mem_cons_self _ _
    | succ i' =>
      rw [List.getD_cons_succ]
      exact List.mem_cons_of_mem _ (ih i' (by simpa using h))

theorem sorted_countP_getD_le {s : List Nat}
    (h : List.Pairwise (fun a b : Nat => b ≤ a) s) (i : Nat) (hi : i < s.length) :
    i + 1 ≤ s.countP (fun a => decide (s.getD i 0 ≤ a)) := by
  induction s generalizing i with
  | nil => simp at hi
  | cons x t ih =>
    rw [List.pairwise_cons] at h
    cases i with
    | zero =>
      rw [List.getD_cons_zero, List.countP_cons]
      split
      · omega
      · next hfalse => exact absurd (by simp) hfalse
    | succ i' =>
      have hi' : i' < t.length := by simpa using hi
      rw [List.getD_cons_succ]
      have hle : t.getD i' 0 ≤ x := h.1 _ (getD_mem_of_lt t i' 0 hi')
      have hcount := ih h.2 i' hi'
      rw [List.countP_cons]
      split
      · omega
      · next hfalse => exact absurd (decide_eq_true hle) hfalse

theorem sorted_countP_gt_le {s : List Nat}
    (h : List.Pairwise (fun a b : Nat => b ≤ a) s) (i : Nat) :
    s.countP (fun a => decide (s.getD i 0 < a)) ≤ i := by
  induction s generalizing i with
  | nil => simp
  | cons x t ih =>
    rw [List.pairwise_cons] at h
    cases i with
    | zero =>
      have hzero : t.countP (fun a => decide (x < a)) = 0 := by
        rw [List.countP_eq_zero]
        intro a ha
        have := h.1 a ha
        simp only [decide_eq_true_eq]
        omega
      rw [List.getD_cons_zero, List.countP_cons, hzero]
      split
      · next htrue => simp at htrue
      · omega
    | succ i' =>
      have hcount := ih h.2 i'
      rw [List.getD_cons_succ, List.countP_cons]
      split <;> omega

theorem sorted_le_getD_of_countP {s : List Nat}
    (h : List.Pairwise (fun a b : Nat => b ≤ a) s) (r k : Nat) (hk : 1 ≤ k)
    (hc : k ≤ s.countP (fun a => decide (r ≤ a))) : r ≤ s.getD (k - 1) 0 := by
  induction s generalizing k with
  | nil => simp at hc; omega
  | cons x t ih =>
    rw [List.pairwise_cons] at h
    cases k with
    | zero => exact absurd hk (by decide)
    | succ k'' =>
      cases k'' with
      | zero =>
        have hpos : 0 < (x :: t).countP (fun a => decide (r ≤ a)) := by omega
        rw [List.countP_pos_iff] at hpos
        obtain ⟨a, ha, hra⟩ := hpos
        simp only [decide_eq_true_eq] at hra
        have hax : a ≤ x := by
          rcases List.mem_cons.mp ha with rfl | ha'
          · exact Nat.le_refl _
          · exact h.1 a ha'
        rw [show (1 : Nat) - 1 = 0 from rfl, List.getD_cons_zero]
        omega
      | succ k' =>
        rw [List.countP_cons] at hc
        have hct : k' + 1 ≤ t.countP (fun a => decide (r ≤ a)) := by
          split at hc <;> omega
        have hrec := ih h.2 (k' + 1) (by omega) hct
        exact hrec

theorem getAck_countP_ge (acks : List Nat) (quorum : Nat)
    (h1 : 1 ≤ quorum) (h2 : quorum ≤ acks.length) :
    acks.length - quorum + 1 ≤
      acks.countP (fun a => decide (GetAcknowledgedWALPosition acks quorum ≤ a)) := by
  have hsorted := pairwise_ge_sortDesc acks
  have hlen := sortDesc_length acks
  have hi : acks.length - quorum < (sortDesc acks).length := by omega
  have h3 := sorted_countP_getD_le hsorted (acks.length - quorum) hi
  rw [countP_sortDesc] at h3
  exact h3

theorem getAck_countP_gt (acks : List Nat) (quorum : Nat) :
    acks.countP (fun a => decide (GetAcknowledgedWALPosition acks quorum < a)) ≤
      acks.length - quorum := by
  have h4 := sorted_countP_gt_le (pairwise_ge_sortDesc acks) (acks.length - quorum)
  rw [countP_sortDesc] at h4
  exact h4

/-- C2 (amended): `GetAcknowledgedWALPosition` returns the `(N-Q+1)`-th
largest acknowledged LSN with ties counted separately: at least `N-Q+1` of
the peers have `ackPos` at or above the returned value, and at most `N-Q`
peers are strictly above it. (The returned value is the highest LSN that at
least Q peers have confirmed only in the special case `N = 2Q - 1`.) -/
theorem GetAcknowledgedWALPosition_order_statistic (acks : List Nat) (quorum : Nat)
    (h1 : 1 ≤ quorum) (h2 : quorum ≤ acks.length) :
    acks.length - quorum + 1 ≤
      acks.countP (fun a => decide (GetAcknowledgedWALPosition acks quorum ≤ a)) ∧
    acks.countP (fun a => decide (GetAcknowledgedWALPosition acks quorum < a)) ≤
      acks.length - quorum :=
  ⟨getAck_countP_ge acks quorum h1 h2, getAck_countP_gt acks quorum⟩

/-- C2 witness input: acks `[10, 20, 30]`, quorum 2 (`N = 3`): the result 20
has 2 = `N-Q+1` peers at or above it and 1 = `N-Q` peer strictly above. -/
theorem GetAcknowledgedWALPosition_order_statistic_witness :
    (3 : Nat) - 2 + 1 ≤
      List.countP (fun a => decide (GetAcknowledgedWALPosition [10, 20, 30] 2 ≤ a))
        [10, 20, 30] ∧
    List.countP (fun a => decide (GetAcknowledgedWALPosition [10, 20, 30] 2 < a))
      [10, 20, 30] ≤ 3 - 2 := by
  have h := GetAcknowledgedWALPosition_order_statistic [10, 20, 30] 2
    (by decide) (by decide)
  simpa using h

/-! ## WAL re-streamer send size (walsender.c) -/

/-- Embedding of the send-size computation of `WalSenderMain`:
`sendSize = Min((uint32)(flushLsn - startpos), MAX_SEND_SIZE)`. The 64-bit
difference is truncated to `uint32` (taken mod `2^32`) before the minimum.
`MAX_SEND_SIZE` comes from the missing header `safekeeper.h` and is kept as a
parameter. -/
def walSendSize (flushLsn startpos maxSendSize : Nat) : Nat :=
  min ((flushLsn - startpos) % 4294967296) maxSendSize

/-- The send size as the claim states it: `min(flushLsn - startpos,
MAX_SEND_SIZE)` in exact integer arithmetic. -/
def walSendSizeExact (flushLsn startpos maxSendSize : Nat) : Nat :=
  min (flushLsn - startpos) maxSendSize

/-- C8: the code violates the claim. When the sender lags the flush position
by exactly `2^32` bytes (`startpos = 0`, `flushLsn = 2^32`, with
`MAX_SEND_SIZE = 131072`), the truncated difference is 0, so the code reads
and emits 0 bytes, while the exact computation gives `MAX_SEND_SIZE`; the
loop then makes no progress. -/
theorem walSendSize_truncates :
    walSendSize 4294967296 0 131072 = 0 ∧
    walSendSizeExact 4294967296 0 131072 = 131072 ∧
    walSendSize 4294967296 0 131072 ≠ walSendSizeExact 4294967296 0 131072 := by
  refine ⟨?_, ?_, ?_⟩ <;> decide

/-! ## Proxy CLI (main in safekeeper_proxy.c) -/

/-- The third argument of `getopt_long` in `main`: the accepted short-option
characters (colons mark options taking an argument). -/
def proxyOptString : String := "D:d:E:h:p:U:s:S:nwWvZ:"

/-- The short options accepted by the proxy CLI. -/
def proxyShortOptions : List Char := proxyOptString.toList.filter (fun c => c ≠ ':')

/-- The `long_options` table of `main`: the accepted long option names. -/
def proxyLongOptionNames : List String :=
  ["help", "version", "dbname", "safekeepers", "username", "no-password", "password", "verbose"]

/-- The options documented by `usage()` in `safekeeper_proxy.c` (first column
of the option table it prints). -/
def usageDocumentedOptions : List String :=
  ["-q, --quorum", "-r, --safekeepers", "-v, --verbose", "-V, --version",
   "-?, --help", "-d, --dbname", "-h, --host", "-p, --port", "-U, --username",
   "-w, --no-password", "-W, --password"]

/-- Modelled from the spec: `MAX_SAFEKEEPERS` is defined in the missing
header `safekeeper.h`; the spec gives the safekeeper-list bound as 64. -/
def MAX_SAFEKEEPERS : Nat := 64

/-- Embedding of the safekeepers list-parsing loop of `main`: entry `k+1` is
rejected with exit status 1 when `n_safekeepers + 1 >= MAX_SAFEKEEPERS`;
`none` models exit 1, `some n` the accepted count. -/
def countSafekeepers : Nat → Nat → Option Nat
  | n, 0 => some n
  | n, Nat.succ k => if MAX_SAFEKEEPERS ≤ n + 1 then none else countSafekeepers (n + 1) k

/-- Embedding of the quorum defaulting and validation in `main`: the static
`quorum` is initialised to 0 and no option case ever assigns it, so the
validation branch always sees `quorum = 0` and defaults it. -/
def quorumCheck (quorumOpt n : Nat) : Option Nat :=
  if quorumOpt = 0 then some (n / 2 + 1)
  else if quorumOpt < n / 2 + 1 ∨ n < quorumOpt then none
  else some quorumOpt

/-- C9: the code contradicts its own `usage()` documentation. `usage()`
documents `-q, --quorum`, but neither the getopt option string nor the long
options table accepts it, so `-q` always exits with status 1 via getopt's
default branch and `quorum` is always defaulted to `floor(N/2)+1`. Moreover
(with the spec's `MAX_SAFEKEEPERS = 64`) the list-parsing loop rejects a 64th
entry: at most 63 safekeepers are accepted, not 64. -/
theorem proxy_cli_rejects_quorum_option :
    proxyShortOptions.contains 'q' = false ∧
    proxyLongOptionNames.contains "quorum" = false ∧
    usageDocumentedOptions.contains "-q, --quorum" = true ∧
    quorumCheck 0 5 = some 3 ∧
    countSafekeepers 0 64 = none ∧
    countSafekeepers 0 63 = some 63 := by
  refine ⟨?_, ?_, ?_, ?_, ?_, ?_⟩ <;> rfl

/-! ## Safekeeper session data model -/

/-- The per-peer connection states of the session state machine. -/
inductive SKState where
  | SS_OFFLINE
  | SS_CONNECTING
  | SS_HANDSHAKE
  | SS_VOTE
  | SS_WAIT_VERDICT
  | SS_IDLE
  | SS_SEND_WAL
  | SS_RECV_ACK
deriving DecidableEq, Repr, Inhabited

/-- One record of the in-flight message queue. `walEnd` is the value the
proxy patches into the frame before broadcast: `walPos + size -
XLOG_HDR_SIZE`. `ackMask` has bit `i` set when safekeeper `i` acknowledged
the record. -/
structure WalMessage where
  walPos : Nat
  size : Nat
  walEnd : Nat
  ackMask : Nat
deriving DecidableEq, Repr, Inhabited

/-- Per-peer session state: connection state, highest acknowledged LSN, and
the message currently in flight to this peer (an index into the list of all
messages ever enqueued). The `default` value is the zero-initialised C
global: `SS_OFFLINE`, `ackPos = 0`, no current message. -/
structure Safekeeper where
  state : SKState
  ackPos : Nat
  currMsg : Option Nat
deriving DecidableEq, Repr, Inhabited

/-! ## BroadcastMessage (C7) -/

/-- Faithful embedding of one peer's handling in `BroadcastMessage`
(`safekeeper_proxy.c`): a peer in `SS_IDLE` is handed the message bytes and
moves to `SS_RECV_ACK` (write completed) or `SS_SEND_WAL` (partial write);
no other field of the session is assigned - in particular `currMsg` is not. -/
def broadcastToPeer (fullyWritten : Bool) (sk : Safekeeper) : Safekeeper :=
  if sk.state = SKState.SS_IDLE then
    { sk with state := if fullyWritten then SKState.SS_RECV_ACK else SKState.SS_SEND_WAL }
  else sk

/-- Faithful embedding of `BroadcastMessage`: hand the new message to every
peer currently in `SS_IDLE`. The source never assigns `safekeeper[i].currMsg`
here (or anywhere else); its `SS_RECV_ACK` handler nevertheless dereferences
`currMsg` (and its assertion references `receievers[i].currMsg`, an undefined
symbol). -/
def BroadcastMessage (fullyWritten : Bool) (sks : List Safekeeper) : List Safekeeper :=
  sks.map (broadcastToPeer fullyWritten)

/-- C7: the code violates the claim. A peer in `SS_IDLE` with no current
message is handed a fully-written message and reaches `SS_RECV_ACK` - the
state whose handler reads `currMsg` - while its `currMsg` is still unset;
`BroadcastMessage` never records which message was handed to the peer. -/
theorem BroadcastMessage_leaves_currMsg_unset :
    BroadcastMessage true [⟨SKState.SS_IDLE, 0, none⟩] =
      [⟨SKState.SS_RECV_ACK, 0, none⟩] ∧
    (BroadcastMessage false [⟨SKState.SS_IDLE, 0, none⟩]).getD 0 default =
      ⟨SKState.SS_SEND_WAL, 0, none⟩ := by
  refine ⟨rfl, rfl⟩

/-! ## Proxy transition system (BroadcastWalStream event loop) -/

/-- Modelled from the spec: `XLOG_HDR_SIZE` is defined in the missing header
`safekeeper.h`; the spec gives the WAL frame header size as 14 bytes. Only
its role in `walEnd = walPos + size - XLOG_HDR_SIZE` matters below. -/
def XLOG_HDR_SIZE : Nat := 14

/-- Encoding `fe_sendint64`: a 64-bit value in network byte order (big-endian), as
produced by the transport library the source links against. -/
def fe_sendint64 (v : Nat) : List Nat :=
  [v / 2 ^ 56 % 256, v / 2 ^ 48 % 256, v / 2 ^ 40 % 256, v / 2 ^ 32 % 256,
   v / 2 ^ 24 % 256, v / 2 ^ 16 % 256, v / 2 ^ 8 % 256, v % 256]

/-- Embedding of `SendFeedback` from `safekeeper_proxy.c`: the standby
status update frame `'r' | write | flush | apply | sendTime |
replyRequested` with `write = flush = blockpos` and `apply =
InvalidXLogRecPtr = 0` (`'r'` is byte 114). -/
def SendFeedback (blockpos now : Nat) (replyRequested : Bool) : List Nat :=
  [114] ++ fe_sendint64 blockpos ++ fe_sendint64 blockpos ++ fe_sendint64 0 ++
    fe_sendint64 now ++ [if replyRequested then 1 else 0]

/-- The mutable globals of the broadcast loop: the safekeeper array, the
list of all messages ever enqueued (list indices are message identities;
`queueHead` is the index of the first unpruned message, so `id < queueHead`
means the message has been pruned and freed), `lastAckPos`, and the LSNs of
the feedback frames sent to the primary so far (most recent last). -/
structure ProxyState where
  sks : List Safekeeper
  msgs : List WalMessage
  queueHead : Nat
  lastAck : Nat
  sentLsns : List Nat
deriving Repr

/-- The `quorum_lsn()` of a proxy state: `GetAcknowledgedWALPosition` applied to
the `ackPos` vector. -/
def GetAckOfState (quorum : Nat) (s : ProxyState) : Nat :=
  GetAcknowledgedWALPosition (s.sks.map Safekeeper.ackPos) quorum

/-- Update safekeeper `i` in place. -/
def updSK (l : List Safekeeper) (i : Nat) (f : Safekeeper → Safekeeper) : List Safekeeper :=
  l.set i (f (l.getD i default))

/-- Length of the longest fully-acknowledged prefix
(`ackMask == (1 << N) - 1`) of the queue, as consumed by the cleanup loop of
`HandleSafekeeperResponse`. -/
def pruneChain (N : Nat) : List WalMessage → Nat
  | [] => 0
  | m :: rest => if m.ackMask = 2 ^ N - 1 then pruneChain N rest + 1 else 0

/-- The feedback half of `HandleSafekeeperResponse`: recompute the quorum
LSN; when it advanced past `lastAckPos`, record it and send a standby status
update (the sent LSN is appended to `sentLsns`). -/
def feedbackStep (quorum : Nat) (s : ProxyState) : ProxyState :=
  if s.lastAck < GetAckOfState quorum s then
    { s with lastAck := GetAckOfState quorum s,
             sentLsns := s.sentLsns ++ [GetAckOfState quorum s] }
  else s

/-- The cleanup half of `HandleSafekeeperResponse`: drop the longest
fully-acknowledged prefix of the message queue. -/
def pruneStep (N : Nat) (s : ProxyState) : ProxyState :=
  { s with queueHead := s.queueHead + pruneChain N (s.msgs.drop s.queueHead) }

/-- Embedding of `HandleSafekeeperResponse`: the conditional feedback to the
primary followed by the queue cleanup loop. -/
def HandleSafekeeperResponse (N quorum : Nat) (s : ProxyState) : ProxyState :=
  pruneStep N (feedbackStep quorum s)

/-- Modelled from the spec: the hand-off of a message to one idle peer. The
source's `BroadcastMessage` sends the bytes and moves the peer out of
`SS_IDLE`, but the `currMsg` bookkeeping its ack path relies on is broken in
the source (no assignment exists, and the ack path reads
`receievers[i].currMsg`, an undefined symbol); the spec names
`safekeeper[i].currMsg` as canonical and requires it to be set when a
message is handed to the peer. Write completion (`SS_SEND_WAL` to
`SS_RECV_ACK`) is a separate step, covering both the immediate-completion
and the partial-write paths of the source. -/
def handoffToPeer (id : Nat) (sk : Safekeeper) : Safekeeper :=
  if sk.state = SKState.SS_IDLE then
    { sk with state := SKState.SS_SEND_WAL, currMsg := some id }
  else sk

/-- Hand a new message to every peer currently in `SS_IDLE` (see
`handoffToPeer`). -/
def BroadcastMessageHandoff (id : Nat) (sks : List Safekeeper) : List Safekeeper :=
  sks.map (handoffToPeer id)

/-- Embedding of `ResetConnection(i)`: the socket is recycled; depending on the outcome
the peer is left `SS_OFFLINE`, `SS_CONNECTING`, or (connection immediately
established and `ServerInfo` written) `SS_HANDSHAKE`. `ackPos` and
`currMsg` are not touched. -/
def applyReset (s : ProxyState) (i : Nat) (st : SKState) : ProxyState :=
  { s with sks := updSK s.sks i (fun sk => { sk with state := st }) }

/-- Completion of the `SS_HANDSHAKE` read: the peer's `SafekeeperInfo` was
fully received with a matching protocol version; `ackPos` is initialised
from the peer's `walEnd` and the state advances to `SS_VOTE`. -/
def applyHandshake (s : ProxyState) (i peerWalEnd : Nat) : ProxyState :=
  { s with
    sks := updSK s.sks i
      (fun sk => { sk with state := SKState.SS_VOTE, ackPos := peerWalEnd }) }

/-- The proposed epoch is written to a voting peer: `SS_VOTE` to
`SS_WAIT_VERDICT`. -/
def applyStartVote (s : ProxyState) (i : Nat) : ProxyState :=
  { s with sks := updSK s.sks i (fun sk => { sk with state := SKState.SS_WAIT_VERDICT }) }

/-- The peer echoes the proposed epoch: `SS_WAIT_VERDICT` to `SS_IDLE`. -/
def applyVerdict (s : ProxyState) (i : Nat) : ProxyState :=
  { s with sks := updSK s.sks i (fun sk => { sk with state := SKState.SS_IDLE }) }

/-- Arrival of one `'w'` frame from the primary: a new `WalMessage` is
appended to the queue with `walEnd` patched to `walPos + size -
XLOG_HDR_SIZE` and an empty `ackMask`, and it is handed to every peer
currently in `SS_IDLE`. -/
def applyRecvWal (s : ProxyState) (walPos size : Nat) : ProxyState :=
  { s with
    msgs := s.msgs ++ [⟨walPos, size, walPos + size - XLOG_HDR_SIZE, 0⟩],
    sks := BroadcastMessageHandoff s.msgs.length s.sks }

/-- Completion of the `SS_SEND_WAL` write: all bytes of the current message
are on the wire; the peer advances to `SS_RECV_ACK` and leaves the write
set. -/
def applySendComplete (s : ProxyState) (i : Nat) : ProxyState :=
  { s with sks := updSK s.sks i (fun sk => { sk with state := SKState.SS_RECV_ACK }) }

/-- Set bit `i` in the ack mask of message `id`. -/
def setAckBit (msgs : List WalMessage) (id i : Nat) : List WalMessage :=
  msgs.set id
    { msgs.getD id default with ackMask := (msgs.getD id default).ackMask ||| 2 ^ i }

/-- Completion of the `SS_RECV_ACK` read of peer `i` carrying `lsn`: the
peer's `ackPos` takes the received value, bit `i` of the current message's
ack mask is set, the peer returns to `SS_IDLE`, and
`HandleSafekeeperResponse` runs. -/
def applyRecvAck (N quorum : Nat) (s : ProxyState) (i id lsn : Nat) : ProxyState :=
  HandleSafekeeperResponse N quorum
    { s with
      sks := updSK s.sks i
        (fun sk => { sk with state := SKState.SS_IDLE, ackPos := lsn }),
      msgs := setAckBit s.msgs id i }

/-- One event of the broadcast loop, as dispatched by `BroadcastWalStream`
for a proxy with `N` safekeepers and quorum `quorum`. -/
inductive Step (N quorum : Nat) : ProxyState → ProxyState → Prop where
  | reset (s : ProxyState) (i : Nat) (st : SKState) (hi : i < N)
      (hst : st = SKState.SS_OFFLINE ∨ st = SKState.SS_CONNECTING ∨
        st = SKState.SS_HANDSHAKE) :
      Step N quorum s (applyReset s i st)
  | handshake (s : ProxyState) (i peerWalEnd : Nat) (hi : i < N)
      (hstate : (s.sks.getD i default).state = SKState.SS_HANDSHAKE) :
      Step N quorum s (applyHandshake s i peerWalEnd)
  | startVote (s : ProxyState) (i : Nat) (hi : i < N)
      (hstate : (s.sks.getD i default).state = SKState.SS_VOTE) :
      Step N quorum s (applyStartVote s i)
  | verdict (s : ProxyState) (i : Nat) (hi : i < N)
      (hstate : (s.sks.getD i default).state = SKState.SS_WAIT_VERDICT) :
      Step N quorum s (applyVerdict s i)
  | recvWal (s : ProxyState) (walPos size : Nat) :
      Step N quorum s (applyRecvWal s walPos size)
  | sendComplete (s : ProxyState) (i : Nat) (hi : i < N)
      (hstate : (s.sks.getD i default).state = SKState.SS_SEND_WAL) :
      Step N quorum s (applySendComplete s i)
  | recvAck (s : ProxyState) (i id lsn : Nat) (hi : i < N)
      (hstate : (s.sks.getD i default).state = SKState.SS_RECV_ACK)
      (hcurr : (s.sks.getD i default).currMsg = some id) :
      Step N quorum s (applyRecvAck N quorum s i id lsn)

/-- A step whose network input obeys the peer protocol: a value delivered by
a peer (its handshake `walEnd` on reconnect, its 8-byte ack) never lies
below the peer's recorded `ackPos`, and - as the source asserts in the
`SS_RECV_ACK` handler - an ack carries exactly the `walEnd` of the message
the peer is acknowledging. -/
inductive GStep (N quorum : Nat) : ProxyState → ProxyState → Prop where
  | reset (s : ProxyState) (i : Nat) (st : SKState) (hi : i < N)
      (hst : st = SKState.SS_OFFLINE ∨ st = SKState.SS_CONNECTING ∨
        st = SKState.SS_HANDSHAKE) :
      GStep N quorum s (applyReset s i st)
  | handshake (s : ProxyState) (i peerWalEnd : Nat) (hi : i < N)
      (hstate : (s.sks.getD i default).state = SKState.SS_HANDSHAKE)
      (hmono : (s.sks.getD i default).ackPos ≤ peerWalEnd) :
      GStep N quorum s (applyHandshake s i peerWalEnd)
  | startVote (s : ProxyState) (i : Nat) (hi : i < N)
      (hstate : (s.sks.getD i default).state = SKState.SS_VOTE) :
      GStep N quorum s (applyStartVote s i)
  | verdict (s : ProxyState) (i : Nat) (hi : i < N)
      (hstate : (s.sks.getD i default).state = SKState.SS_WAIT_VERDICT) :
      GStep N quorum s (applyVerdict s i)
  | recvWal (s : ProxyState) (walPos size : Nat) :
      GStep N quorum s (applyRecvWal s walPos size)
  | sendComplete (s : ProxyState) (i : Nat) (hi : i < N)
      (hstate : (s.sks.getD i default).state = SKState.SS_SEND_WAL) :
      GStep N quorum s (applySendComplete s i)
  | recvAck (s : ProxyState) (i id lsn : Nat) (hi : i < N)
      (hstate : (s.sks.getD i default).state = SKState.SS_RECV_ACK)
      (hcurr : (s.sks.getD i default).currMsg = some id)
      (hmono : (s.sks.getD i default).ackPos ≤ lsn)
      (hack : lsn = (s.msgs.getD id default).walEnd) :
      GStep N quorum s (applyRecvAck N quorum s i id lsn)

theorem GStep.toStep {N quorum : Nat} {s t : ProxyState} (h : GStep N quorum s t) :
    Step N quorum s t := by
  cases h with
  | reset i st hi hst => exact Step.reset s i st hi hst
  | handshake i w hi hstate hmono => exact Step.handshake s i w hi hstate
  | startVote i hi hstate => exact Step.startVote s i hi hstate
  | verdict i hi hstate => exact Step.verdict s i hi hstate
  | recvWal walPos size => exact Step.recvWal s walPos size
  | sendComplete i hi hstate => exact Step.sendComplete s i hi hstate
  | recvAck i id lsn hi hstate hcurr hmono hack =>
      exact Step.recvAck s i id lsn hi hstate hcurr

/-- The initial proxy state: the zero-initialised safekeeper array, empty
queue, `lastAckPos = 0`, nothing sent. -/
def initState (N : Nat) : ProxyState :=
  ⟨List.replicate N default, [], 0, 0, []⟩

/-- States reachable by the broadcast loop. -/
def Reach (N quorum : Nat) (s : ProxyState) : Prop :=
  Relation.ReflTransGen (Step N quorum) (initState N) s

/-- States reachable by the broadcast loop under the peer-protocol
precondition. -/
def GReach (N quorum : Nat) (s : ProxyState) : Prop :=
  Relation.ReflTransGen (GStep N quorum) (initState N) s

/-! ## List and state helper lemmas -/

theorem getD_set_ne {α : Type} (l : List α) (i j : Nat) (v d : α) (h : i ≠ j) :
    (l.set i v).getD j d = l.getD j d := by
  induction l generalizing i j with
  | nil => rfl
  | cons x t ih =>
    cases i with
    | zero =>
      cases j with
      | zero => exact absurd rfl h
      | succ j' => rw [List.set_cons_zero, List.getD_cons_succ, List.getD_cons_succ]
    | succ i' =>
      cases j with
      | zero => rw [List.set_cons_succ, List.getD_cons_zero, List.getD_cons_zero]
      | succ j' =>
        rw [List.set_cons_succ, List.getD_cons_succ, List.getD_cons_succ]
        exact ih i' j' (by omega)

theorem getD_set_self {α : Type} (l : List α) (i : Nat) (v d : α) (h : i < l.length) :
    (l.set i v).getD i d = v := by
  induction l generalizing i with
  | nil => simp at h
  | cons x t ih =>
    cases i with
    | zero => rw [List.set_cons_zero, List.getD_cons_zero]
    | succ i' =>
      rw [List.set_cons_succ, List.getD_cons_succ]
      exact ih i' (by simpa using h)

theorem getD_drop {α : Type} (l : List α) (n k : Nat) (d : α) :
    (l.drop n).getD k d = l.getD (n + k) d := by
  induction l generalizing n with
  | nil => simp
  | cons x t ih =>
    cases n with
    | zero => rw [List.drop_zero, Nat.zero_add]
    | succ n' =>
      rw [List.drop_succ_cons, ih n', show n' + 1 + k = n' + k + 1 by omega,
        List.getD_cons_succ]

theorem getD_map_ackPos (l : List Safekeeper) (i : Nat) :
    (l.map Safekeeper.ackPos).getD i 0 = (l.getD i default).ackPos := by
  induction l generalizing i with
  | nil => rfl
  | cons x t ih =>
    cases i with
    | zero => rfl
    | succ i' =>
      rw [List.map_cons, List.getD_cons_succ, List.getD_cons_succ]
      exact ih i'

theorem updSK_map_ackPos (l : List Safekeeper) (i : Nat) (f : Safekeeper → Safekeeper) :
    (updSK l i f).map Safekeeper.ackPos =
      (l.map Safekeeper.ackPos).set i (f (l.getD i default)).ackPos := by
  unfold updSK
  rw [List.map_set]

theorem handoff_ackPos (id : Nat) (sk : Safekeeper) :
    (handoffToPeer id sk).ackPos = sk.ackPos := by
  unfold handoffToPeer
  split <;> rfl

theorem handoff_map_ackPos (id : Nat) (l : List Safekeeper) :
    (BroadcastMessageHandoff id l).map Safekeeper.ackPos = l.map Safekeeper.ackPos := by
  unfold BroadcastMessageHandoff
  induction l with
  | nil => rfl
  | cons x t ih =>
    rw [List.map_cons, List.map_cons, List.map_cons, handoff_ackPos, ih]

theorem getD_map_handoff (id : Nat) (l : List Safekeeper) (j : Nat) :
    (l.map (handoffToPeer id)).getD j default = handoffToPeer id (l.getD j default) := by
  induction l generalizing j with
  | nil =>
    show (default : Safekeeper) = handoffToPeer id default
    rfl
  | cons x t ih =>
    cases j with
    | zero => rfl
    | succ j' =>
      rw [List.map_cons, List.getD_cons_succ, List.getD_cons_succ]
      exact ih j'

theorem getD_updSK_ne (l : List Safekeeper) (i j : Nat) (f : Safekeeper → Safekeeper)
    (h : i ≠ j) : (updSK l i f).getD j default = l.getD j default :=
  getD_set_ne _ _ _ _ _ h

theorem getD_updSK_self (l : List Safekeeper) (i : Nat) (f : Safekeeper → Safekeeper)
    (h : i < l.length) : (updSK l i f).getD i default = f (l.getD i default) :=
  getD_set_self _ _ _ _ h

theorem feedbackStep_sks (quorum : Nat) (s : ProxyState) :
    (feedbackStep quorum s).sks = s.sks := by
  unfold feedbackStep
  split <;> rfl

theorem feedbackStep_msgs (quorum : Nat) (s : ProxyState) :
    (feedbackStep quorum s).msgs = s.msgs := by
  unfold feedbackStep
  split <;> rfl

theorem feedbackStep_queueHead (quorum : Nat) (s : ProxyState) :
    (feedbackStep quorum s).queueHead = s.queueHead := by
  unfold feedbackStep
  split <;> rfl

theorem HandleSafekeeperResponse_sks (N quorum : Nat) (s : ProxyState) :
    (HandleSafekeeperResponse N quorum s).sks = s.sks := by
  unfold HandleSafekeeperResponse pruneStep
  rw [feedbackStep_sks]

theorem HandleSafekeeperResponse_msgs (N quorum : Nat) (s : ProxyState) :
    (HandleSafekeeperResponse N quorum s).msgs = s.msgs := by
  unfold HandleSafekeeperResponse pruneStep
  rw [feedbackStep_msgs]

theorem applyRecvAck_sks (N quorum : Nat) (s : ProxyState) (i id lsn : Nat) :
    (applyRecvAck N quorum s i id lsn).sks =
      updSK s.sks i (fun sk => { sk with state := SKState.SS_IDLE, ackPos := lsn }) := by
  unfold applyRecvAck
  rw [HandleSafekeeperResponse_sks]

theorem applyRecvAck_msgs (N quorum : Nat) (s : ProxyState) (i id lsn : Nat) :
    (applyRecvAck N quorum s i id lsn).msgs = setAckBit s.msgs id i := by
  unfold applyRecvAck
  rw [HandleSafekeeperResponse_msgs]

theorem Step.sks_length {N quorum : Nat} {s t : ProxyState} (h : Step N quorum s t) :
    t.sks.length = s.sks.length := by
  cases h with
  | reset i st hi hst => simp [applyReset, updSK]
  | handshake i w hi hstate => simp [applyHandshake, updSK]
  | startVote i hi hstate => simp [applyStartVote, updSK]
  | verdict i hi hstate => simp [applyVerdict, updSK]
  | recvWal walPos size => simp [applyRecvWal, BroadcastMessageHandoff]
  | sendComplete i hi hstate => simp [applySendComplete, updSK]
  | recvAck i id lsn hi hstate hcurr => rw [applyRecvAck_sks]; simp [updSK]

/-! ## Monotonicity of the quorum LSN (C4) -/

theorem forall2_le_refl (l : List Nat) : List.Forall₂ (· ≤ ·) l l :=
  List.forall₂_same.mpr (fun x _ => Nat.le_refl x)

theorem forall2_le_set (l : List Nat) (i v : Nat) (h : l.getD i 0 ≤ v) :
    List.Forall₂ (· ≤ ·) l (l.set i v) := by
  induction l generalizing i with
  | nil => exact List.Forall₂.nil
  | cons x t ih =>
    cases i with
    | zero =>
      rw [List.set_cons_zero]
      exact List.Forall₂.cons (by simpa using h) (forall2_le_refl t)
    | succ i' =>
      rw [List.set_cons_succ]
      exact List.Forall₂.cons (Nat.le_refl x) (ih i' (by simpa using h))

theorem countP_le_of_forall2 (r : Nat) {l l' : List Nat}
    (h : List.Forall₂ (· ≤ ·) l l') :
    l.countP (fun a => decide (r ≤ a)) ≤ l'.countP (fun a => decide (r ≤ a)) := by
  induction h with
  | nil => exact Nat.le_refl 0
  | cons hab htl ih =>
    rename_i a b l1 l2
    rw [List.countP_cons, List.countP_cons]
    simp only [decide_eq_true_eq]
    by_cases hr : r ≤ a
    · rw [if_pos hr, if_pos (le_trans hr hab)]
      omega
    · rw [if_neg hr]
      split <;> omega

theorem GetAcknowledgedWALPosition_mono (l l' : List Nat) (quorum : Nat)
    (h1 : 1 ≤ quorum) (h2 : quorum ≤ l.length)
    (hle : List.Forall₂ (· ≤ ·) l l') :
    GetAcknowledgedWALPosition l quorum ≤ GetAcknowledgedWALPosition l' quorum := by
  have hlen : l.length = l'.length := hle.length_eq
  have hcl := getAck_countP_ge l quorum h1 h2
  have hcl' := le_trans hcl (countP_le_of_forall2 _ hle)
  have hcs' : l.length - quorum + 1 ≤
      (sortDesc l').countP
        (fun a => decide (GetAcknowledgedWALPosition l quorum ≤ a)) := by
    rw [countP_sortDesc]
    exact hcl'
  have hres := sorted_le_getD_of_countP (pairwise_ge_sortDesc l')
    (GetAcknowledgedWALPosition l quorum) (l.length - quorum + 1) (by omega) hcs'
  have hidx : l.length - quorum + 1 - 1 = l'.length - quorum := by omega
  rw [hidx] at hres
  exact hres

theorem gstep_acks_le {N quorum : Nat} {s t : ProxyState} (h : GStep N quorum s t) :
    List.Forall₂ (· ≤ ·) (s.sks.map Safekeeper.ackPos) (t.sks.map Safekeeper.ackPos) := by
  cases h with
  | reset i st hi hst =>
    rw [show (applyReset s i st).sks =
        updSK s.sks i (fun sk => { sk with state := st }) from rfl, updSK_map_ackPos]
    exact forall2_le_set _ i _ (le_of_eq (getD_map_ackPos _ _))
  | handshake i w hi hstate hmono =>
    rw [show (applyHandshake s i w).sks =
        updSK s.sks i (fun sk => { sk with state := SKState.SS_VOTE, ackPos := w })
        from rfl, updSK_map_ackPos]
    exact forall2_le_set _ i _ (by rw [getD_map_ackPos]; exact hmono)
  | startVote i hi hstate =>
    rw [show (applyStartVote s i).sks =
        updSK s.sks i (fun sk => { sk with state := SKState.SS_WAIT_VERDICT }) from rfl,
      updSK_map_ackPos]
    exact forall2_le_set _ i _ (le_of_eq (getD_map_ackPos _ _))
  | verdict i hi hstate =>
    rw [show (applyVerdict s i).sks =
        updSK s.sks i (fun sk => { sk with state := SKState.SS_IDLE }) from rfl,
      updSK_map_ackPos]
    exact forall2_le_set _ i _ (le_of_eq (getD_map_ackPos _ _))
  | recvWal walPos size =>
    rw [show (applyRecvWal s walPos size).sks = BroadcastMessageHandoff s.msgs.length s.sks
        from rfl, handoff_map_ackPos]
    exact forall2_le_refl _
  | sendComplete i hi hstate =>
    rw [show (applySendComplete s i).sks =
        updSK s.sks i (fun sk => { sk with state := SKState.SS_RECV_ACK }) from rfl,
      updSK_map_ackPos]
    exact forall2_le_set _ i _ (le_of_eq (getD_map_ackPos _ _))
  | recvAck i id lsn hi hstate hcurr hmono hack =>
    rw [applyRecvAck_sks, updSK_map_ackPos]
    exact forall2_le_set _ i _ (by rw [getD_map_ackPos]; exact hmono)

theorem gsteps_sks_length {N quorum : Nat} {s t : ProxyState}
    (h : Relation.ReflTransGen (GStep N quorum) s t) : t.sks.length = s.sks.length := by
  induction h with
  | refl => rfl
  | tail hab hbc ih => rw [hbc.toStep.sks_length, ih]

/-- C4: over every execution of the proxy in which each peer's protocol
delivers non-decreasing ack values (each `ackPos` update - handshake
`walEnd` on reconnect or 8-byte ack in `SS_RECV_ACK` - is at or above the
peer's recorded `ackPos`), the value of `quorum_lsn()` is non-decreasing. -/
theorem quorum_lsn_nondecreasing (N quorum : Nat) (h1 : 1 ≤ quorum) (h2 : quorum ≤ N)
    (s t : ProxyState) (hlen : s.sks.length = N)
    (hexec : Relation.ReflTransGen (GStep N quorum) s t) :
    GetAckOfState quorum s ≤ GetAckOfState quorum t := by
  induction hexec with
  | refl => exact Nat.le_refl _
  | tail hab hbc ih =>
    rename_i b c
    have hlenb : b.sks.length = N := by rw [gsteps_sks_length hab, hlen]
    refine le_trans ih ?_
    exact GetAcknowledgedWALPosition_mono _ _ quorum h1
      (by rw [List.length_map, hlenb]; exact h2) (gstep_acks_le hbc)

/-- C4 witness input: `N = quorum = 1`, one `recvWal` event from the initial
state. -/
theorem quorum_lsn_nondecreasing_witness :
    GetAckOfState 1 (initState 1) ≤ GetAckOfState 1 (applyRecvWal (initState 1) 100 39) :=
  quorum_lsn_nondecreasing 1 1 (by decide) (by decide) (initState 1) _
    (by rfl) (Relation.ReflTransGen.single (GStep.recvWal (initState 1) 100 39))

/-! ## Well-formedness of reachable states -/

/-- Structural well-formedness: the safekeeper array has length `N`, the
queue head is inside the message store, and every `currMsg` references a
stored message. -/
def WF (N : Nat) (s : ProxyState) : Prop :=
  s.sks.length = N ∧ s.queueHead ≤ s.msgs.length ∧
  ∀ sk ∈ s.sks, ∀ id, sk.currMsg = some id → id < s.msgs.length

theorem initState_wf (N : Nat) : WF N (initState N) := by
  refine ⟨List.length_replicate _ _, Nat.le_refl 0, ?_⟩
  intro sk hsk id hid
  rw [List.eq_of_mem_replicate hsk] at hid
  exact Option.noConfusion hid

theorem pruneChain_le_length (N : Nat) (l : List WalMessage) :
    pruneChain N l ≤ l.length := by
  induction l with
  | nil => exact Nat.le_refl 0
  | cons m rest ih =>
    unfold pruneChain
    split
    · simpa using ih
    · exact Nat.zero_le _

theorem pruneChain_full (N : Nat) (l : List WalMessage) (k : Nat)
    (hk : k < pruneChain N l) : (l.getD k default).ackMask = 2 ^ N - 1 := by
  induction l generalizing k with
  | nil => simp [pruneChain] at hk
  | cons m rest ih =>
    unfold pruneChain at hk
    split at hk
    · next hfull =>
      cases k with
      | zero => rw [List.getD_cons_zero]; exact hfull
      | succ k' =>
        rw [List.getD_cons_succ]
        exact ih k' (by omega)
    · omega

theorem or_two_pow_full {N i : Nat} (hi : i < N) :
    (2 ^ N - 1) ||| 2 ^ i = 2 ^ N - 1 := by
  apply Nat.eq_of_testBit_eq
  intro k
  rw [Nat.testBit_or]
  by_cases hk : k = i
  · subst hk
    rw [Nat.testBit_two_pow_self, Nat.testBit_two_pow_sub_one]
    simp [hi]
  · rw [Nat.testBit_two_pow_of_ne (fun he => hk he.symm)]
    simp

theorem testBit_or_two_pow (m i k : Nat) :
    (m ||| 2 ^ i).testBit k = (m.testBit k || decide (k = i)) := by
  rw [Nat.testBit_or]
  by_cases hk : k = i
  · subst hk
    rw [Nat.testBit_two_pow_self]
    simp
  · rw [Nat.testBit_two_pow_of_ne (fun he => hk he.symm)]
    simp [hk]

theorem wf_updSK {N : Nat} {s : ProxyState} (hwf : WF N s) (i : Nat) (hi : i < N)
    (f : Safekeeper → Safekeeper) (hf : ∀ sk, (f sk).currMsg = sk.currMsg) :
    WF N { s with sks := updSK s.sks i f } := by
  obtain ⟨hlen, hqh, hcm⟩ := hwf
  refine ⟨by simp [updSK, hlen], hqh, ?_⟩
  intro sk hsk id hid
  rcases List.mem_or_eq_of_mem_set hsk with hsk | rfl
  · exact hcm sk hsk id hid
  · rw [hf] at hid
    exact hcm _ (getD_mem_of_lt _ i default (by rw [hlen]; exact hi)) id hid

theorem wf_feedbackStep {N quorum : Nat} {s : ProxyState} (hwf : WF N s) :
    WF N (feedbackStep quorum s) := by
  unfold feedbackStep
  split
  · exact hwf
  · exact hwf

theorem wf_pruneStep {N : Nat} {s : ProxyState} (hwf : WF N s) :
    WF N (pruneStep N s) := by
  obtain ⟨hlen, hqh, hcm⟩ := hwf
  refine ⟨hlen, ?_, hcm⟩
  have h1 := pruneChain_le_length N (s.msgs.drop s.queueHead)
  rw [List.length_drop] at h1
  show s.queueHead + pruneChain N (s.msgs.drop s.queueHead) ≤ s.msgs.length
  omega

theorem Step.wf {N quorum : Nat} {s t : ProxyState} (hstep : Step N quorum s t)
    (hwf : WF N s) : WF N t := by
  cases hstep with
  | reset i st hi hst => exact wf_updSK hwf i hi _ (fun sk => rfl)
  | handshake i w hi hstate => exact wf_updSK hwf i hi _ (fun sk => rfl)
  | startVote i hi hstate => exact wf_updSK hwf i hi _ (fun sk => rfl)
  | verdict i hi hstate => exact wf_updSK hwf i hi _ (fun sk => rfl)
  | sendComplete i hi hstate => exact wf_updSK hwf i hi _ (fun sk => rfl)
  | recvWal walPos size =>
    obtain ⟨hlen, hqh, hcm⟩ := hwf
    refine ⟨?_, ?_, ?_⟩
    · show (BroadcastMessageHandoff s.msgs.length s.sks).length = N
      rw [BroadcastMessageHandoff, List.length_map, hlen]
    · show s.queueHead ≤ (s.msgs ++ [_]).length
      rw [List.length_append]
      exact le_trans hqh (Nat.le_add_right _ _)
    · intro sk hsk id hid
      show id < (s.msgs ++ [_]).length
      rw [List.length_append, List.length_singleton]
      obtain ⟨orig, horig, heq⟩ := List.mem_map.mp hsk
      subst heq
      unfold handoffToPeer at hid
      by_cases hst : orig.state = SKState.SS_IDLE
      · rw [if_pos hst] at hid
        have : s.msgs.length = id := Option.some.inj hid
        omega
      · rw [if_neg hst] at hid
        have := hcm orig horig id hid
        omega
  | recvAck i id lsn hi hstate hcurr =>
    have hinner : WF N { s with
        sks := updSK s.sks i
          (fun sk => { sk with state := SKState.SS_IDLE, ackPos := lsn }),
        msgs := setAckBit s.msgs id i } := by
      obtain ⟨hlen, hqh, hcm⟩ := hwf
      refine ⟨by simp [updSK, hlen], ?_, ?_⟩
      · show s.queueHead ≤ (setAckBit s.msgs id i).length
        rw [setAckBit, List.length_set]
        exact hqh
      · intro sk hsk id' hid'
        show id' < (setAckBit s.msgs id i).length
        rw [setAckBit, List.length_set]
        rcases List.mem_or_eq_of_mem_set hsk with hsk | rfl
        · exact hcm sk hsk id' hid'
        · exact hcm _ (getD_mem_of_lt _ i default (by rw [hlen]; exact hi)) id' hid'
    exact wf_pruneStep (wf_feedbackStep hinner)

theorem reach_wf {N quorum : Nat} {s : ProxyState} (h : Reach N quorum s) : WF N s := by
  induction h with
  | refl => exact initState_wf N
  | tail hab hbc ih => exact hbc.wf ih

theorem greach_reach {N quorum : Nat} {s : ProxyState} (h : GReach N quorum s) :
    Reach N quorum s :=
  Relation.ReflTransGen.mono (fun _ _ hg => hg.toStep) h

/-! ## The acknowledgement invariant (C5) -/

/-- The acknowledgement invariant: every pruned message carries a full ack
mask, and a set bit `i` in any message's ack mask means peer `i` has
confirmed an LSN at or past the message's `walEnd`. -/
def AckInv (N : Nat) (s : ProxyState) : Prop :=
  (∀ id, id < s.queueHead → (s.msgs.getD id default).ackMask = 2 ^ N - 1) ∧
  (∀ id, id < s.msgs.length → ∀ i, i < N →
    (s.msgs.getD id default).ackMask.testBit i = true →
    (s.msgs.getD id default).walEnd ≤ (s.sks.getD i default).ackPos)

theorem initState_ackInv (N : Nat) : AckInv N (initState N) := by
  constructor
  · intro id hid
    exact absurd hid (Nat.not_lt_zero id)
  · intro id hid
    exact absurd hid (Nat.not_lt_zero id)

theorem getD_updSK_ackPos (l : List Safekeeper) (i j : Nat)
    (f : Safekeeper → Safekeeper) (hil : i < l.length)
    (hf : ∀ sk, (f sk).ackPos = sk.ackPos) :
    ((updSK l i f).getD j default).ackPos = (l.getD j default).ackPos := by
  by_cases hij : i = j
  · subst hij
    rw [getD_updSK_self _ _ _ hil, hf]
  · rw [getD_updSK_ne _ _ _ _ hij]

theorem getD_concat_length {α : Type} (l : List α) (m d : α) :
    (l ++ [m]).getD l.length d = m := by
  induction l with
  | nil => rfl
  | cons x t ih =>
    rw [List.cons_append, show (x :: t).length = t.length + 1 from rfl,
      List.getD_cons_succ]
    exact ih

theorem ackinv_feedbackStep {N quorum : Nat} {s : ProxyState} (h : AckInv N s) :
    AckInv N (feedbackStep quorum s) := by
  unfold feedbackStep
  split
  · exact h
  · exact h

theorem ackinv_pruneStep {N : Nat} {s : ProxyState} (h : AckInv N s) :
    AckInv N (pruneStep N s) := by
  obtain ⟨hpruned, hbit⟩ := h
  constructor
  · intro id hid
    show (s.msgs.getD id default).ackMask = 2 ^ N - 1
    by_cases hq : id < s.queueHead
    · exact hpruned id hq
    · have hlt : id - s.queueHead < pruneChain N (s.msgs.drop s.queueHead) := by
        have h2 : id < s.queueHead + pruneChain N (s.msgs.drop s.queueHead) := hid
        omega
      have h3 := pruneChain_full N (s.msgs.drop s.queueHead) (id - s.queueHead) hlt
      rw [getD_drop, show s.queueHead + (id - s.queueHead) = id by omega] at h3
      exact h3
  · exact hbit

theorem GStep.ackInv {N quorum : Nat} {s t : ProxyState} (hstep : GStep N quorum s t)
    (hwf : WF N s) (hinv : AckInv N s) : AckInv N t := by
  obtain ⟨hlen, hqh, hcm⟩ := hwf
  obtain ⟨hpruned, hbit⟩ := hinv
  cases hstep with
  | reset i st hi hst =>
    refine ⟨hpruned, ?_⟩
    intro id hid i' hi' htb
    show (s.msgs.getD id default).walEnd ≤
      ((updSK s.sks i (fun sk => { sk with state := st })).getD i' default).ackPos
    rw [getD_updSK_ackPos s.sks i i' (fun sk => { sk with state := st })
      (by rw [hlen]; exact hi) (fun sk => rfl)]
    exact hbit id hid i' hi' htb
  | startVote i hi hstate =>
    refine ⟨hpruned, ?_⟩
    intro id hid i' hi' htb
    show (s.msgs.getD id default).walEnd ≤
      ((updSK s.sks i (fun sk => { sk with state := SKState.SS_WAIT_VERDICT })).getD
        i' default).ackPos
    rw [getD_updSK_ackPos s.sks i i'
      (fun sk => { sk with state := SKState.SS_WAIT_VERDICT })
      (by rw [hlen]; exact hi) (fun sk => rfl)]
    exact hbit id hid i' hi' htb
  | verdict i hi hstate =>
    refine ⟨hpruned, ?_⟩
    intro id hid i' hi' htb
    show (s.msgs.getD id default).walEnd ≤
      ((updSK s.sks i (fun sk => { sk with state := SKState.SS_IDLE })).getD
        i' default).ackPos
    rw [getD_updSK_ackPos s.sks i i' (fun sk => { sk with state := SKState.SS_IDLE })
      (by rw [hlen]; exact hi) (fun sk => rfl)]
    exact hbit id hid i' hi' htb
  | sendComplete i hi hstate =>
    refine ⟨hpruned, ?_⟩
    intro id hid i' hi' htb
    show (s.msgs.getD id default).walEnd ≤
      ((updSK s.sks i (fun sk => { sk with state := SKState.SS_RECV_ACK })).getD
        i' default).ackPos
    rw [getD_updSK_ackPos s.sks i i'
      (fun sk => { sk with state := SKState.SS_RECV_ACK })
      (by rw [hlen]; exact hi) (fun sk => rfl)]
    exact hbit id hid i' hi' htb
  | handshake i w hi hstate hmono =>
    refine ⟨hpruned, ?_⟩
    intro id hid i' hi' htb
    have hold := hbit id hid i' hi' htb
    show (s.msgs.getD id default).walEnd ≤
      ((updSK s.sks i
        (fun sk => { sk with state := SKState.SS_VOTE, ackPos := w })).getD
        i' default).ackPos
    by_cases hii : i = i'
    · subst hii
      rw [getD_updSK_self _ _ _ (by rw [hlen]; exact hi)]
      exact le_trans hold hmono
    · rw [getD_updSK_ne _ _ _ _ hii]
      exact hold
  | recvWal walPos size =>
    constructor
    · intro id hid
      have hidlen : id < s.msgs.length := by
        have h2 : id < s.queueHead := hid
        omega
      show ((s.msgs ++ [_]).getD id default).ackMask = 2 ^ N - 1
      rw [List.getD_append _ _ _ _ hidlen]
      exact hpruned id hid
    · intro id hid i' hi' htb
      have hid2 : id < s.msgs.length + 1 := by
        have h2 : id < (s.msgs ++
            [(⟨walPos, size, walPos + size - XLOG_HDR_SIZE, 0⟩ : WalMessage)]).length :=
          hid
        rw [List.length_append, List.length_singleton] at h2
        exact h2
      have htb2 : ((s.msgs ++
          [(⟨walPos, size, walPos + size - XLOG_HDR_SIZE, 0⟩ : WalMessage)]).getD
          id default).ackMask.testBit i' = true := htb
      show ((s.msgs ++
        [(⟨walPos, size, walPos + size - XLOG_HDR_SIZE, 0⟩ : WalMessage)]).getD
          id default).walEnd ≤
        ((BroadcastMessageHandoff s.msgs.length s.sks).getD i' default).ackPos
      rw [BroadcastMessageHandoff, getD_map_handoff, handoff_ackPos]
      by_cases hidlen : id < s.msgs.length
      · rw [List.getD_append _ _ _ _ hidlen] at htb2 ⊢
        exact hbit id hidlen i' hi' htb2
      · have hideq : id = s.msgs.length := by omega
        subst hideq
        rw [getD_concat_length] at htb2
        simp at htb2
  | recvAck i id lsn hi hstate hcurr hmono hack =>
    have hidlen : id < s.msgs.length :=
      hcm _ (getD_mem_of_lt _ i default (by rw [hlen]; exact hi)) id hcurr
    have hinner : AckInv N { s with
        sks := updSK s.sks i
          (fun sk => { sk with state := SKState.SS_IDLE, ackPos := lsn }),
        msgs := setAckBit s.msgs id i } := by
      constructor
      · intro id' hid'
        show ((setAckBit s.msgs id i).getD id' default).ackMask = 2 ^ N - 1
        by_cases hide : id' = id
        · subst hide
          rw [setAckBit, getD_set_self _ _ _ _ hidlen]
          show (s.msgs.getD id' default).ackMask ||| 2 ^ i = 2 ^ N - 1
          rw [hpruned id' hid']
          exact or_two_pow_full hi
        · rw [setAckBit, getD_set_ne _ _ _ _ _ (fun he => hide he.symm)]
          exact hpruned id' hid'
      · intro id' hid' i' hi' htb
        have hlen' : (setAckBit s.msgs id i).length = s.msgs.length := by
          rw [setAckBit, List.length_set]
        rw [show ({ s with
            sks := updSK s.sks i
              (fun sk => { sk with state := SKState.SS_IDLE, ackPos := lsn }),
            msgs := setAckBit s.msgs id i } : ProxyState).msgs =
            setAckBit s.msgs id i from rfl, hlen'] at hid'
        show ((setAckBit s.msgs id i).getD id' default).walEnd ≤
          ((updSK s.sks i
            (fun sk => { sk with state := SKState.SS_IDLE, ackPos := lsn })).getD
            i' default).ackPos
        by_cases hii : i = i'
        · subst hii
          rw [getD_updSK_self _ _ _ (by rw [hlen]; exact hi)]
          show _ ≤ lsn
          by_cases hide : id' = id
          · subst hide
            rw [setAckBit, getD_set_self _ _ _ _ hidlen]
            show (s.msgs.getD id' default).walEnd ≤ lsn
            exact le_of_eq hack.symm
          · rw [setAckBit, getD_set_ne _ _ _ _ _ (fun he => hide he.symm)]
            rw [setAckBit, getD_set_ne _ _ _ _ _ (fun he => hide he.symm)] at htb
            exact le_trans (hbit id' hid' i hi htb) hmono
        · rw [getD_updSK_ne _ _ _ _ hii]
          by_cases hide : id' = id
          · subst hide
            rw [setAckBit, getD_set_self _ _ _ _ hidlen]
            rw [setAckBit, getD_set_self _ _ _ _ hidlen] at htb
            show (s.msgs.getD id' default).walEnd ≤ _
            have htb2 : ((s.msgs.getD id' default).ackMask ||| 2 ^ i).testBit i' =
                true := htb
            rw [testBit_or_two_pow] at htb2
            rcases Bool.or_eq_true_iff.mp htb2 with htb3 | htb3
            · exact hbit id' hid' i' hi' htb3
            · exact absurd (of_decide_eq_true htb3).symm hii
          · rw [setAckBit, getD_set_ne _ _ _ _ _ (fun he => hide he.symm)]
            rw [setAckBit, getD_set_ne _ _ _ _ _ (fun he => hide he.symm)] at htb
            exact hbit id' hid' i' hi' htb
    exact ackinv_pruneStep (ackinv_feedbackStep hinner)

theorem greach_wf_ackInv {N quorum : Nat} {s : ProxyState} (h : GReach N quorum s) :
    WF N s ∧ AckInv N s := by
  induction h with
  | refl => exact ⟨initState_wf N, initState_ackInv N⟩
  | tail hab hbc ih => exact ⟨hbc.toStep.wf ih.1, hbc.ackInv ih.1 ih.2⟩

/-- C5: in every reachable state of an execution obeying the peer protocol,
a record pruned from the queue has been acknowledged by all N safekeepers -
so at least Q of them hold `ackPos` at or past the record's `walEnd` (and
this keeps holding from the moment of pruning on, since acks only grow). -/
theorem pruned_implies_quorum_acked (N quorum : Nat) (hq : quorum ≤ N)
    (s : ProxyState) (hreach : GReach N quorum s)
    (id : Nat) (hid : id < s.queueHead) :
    quorum ≤ (s.sks.map Safekeeper.ackPos).countP
      (fun a => decide ((s.msgs.getD id default).walEnd ≤ a)) := by
  obtain ⟨⟨hlen, hqh, hcm⟩, ⟨hpruned, hbit⟩⟩ := greach_wf_ackInv hreach
  have hidlen : id < s.msgs.length := by omega
  have hfull := hpruned id hid
  have hall : ∀ i, i < N →
      (s.msgs.getD id default).walEnd ≤ (s.sks.getD i default).ackPos := by
    intro i hi
    refine hbit id hidlen i hi ?_
    rw [hfull, Nat.testBit_two_pow_sub_one]
    simpa using hi
  have hcount : (s.sks.map Safekeeper.ackPos).countP
      (fun a => decide ((s.msgs.getD id default).walEnd ≤ a)) =
      (s.sks.map Safekeeper.ackPos).length := by
    rw [List.countP_eq_length]
    intro a ha
    obtain ⟨sk, hsk, hska⟩ := List.mem_map.mp ha
    obtain ⟨n, hn, hne⟩ := List.mem_iff_getElem.mp hsk
    have hgd : s.sks.getD n default = sk := by
      rw [List.getD_eq_getElem _ _ hn, hne]
    have := hall n (by rw [← hlen]; exact hn)
    rw [hgd] at this
    rw [← hska]
    exact decide_eq_true this
  rw [hcount, List.length_map, hlen]
  exact hq

/-! ## A concrete execution (N = 1, quorum = 1) used as witness input -/

/-- Witness trace, step 0: the initial state. -/
def exS0 : ProxyState := initState 1

/-- Step 1: the connection to peer 0 is established synchronously. -/
def exS1 : ProxyState := applyReset exS0 0 SKState.SS_HANDSHAKE

/-- Step 2: peer 0 answers the handshake with `walEnd = 100`. -/
def exS2 : ProxyState := applyHandshake exS1 0 100

/-- Step 3: the proposed epoch is written to peer 0. -/
def exS3 : ProxyState := applyStartVote exS2 0

/-- Step 4: peer 0 echoes the epoch and becomes idle. -/
def exS4 : ProxyState := applyVerdict exS3 0

/-- Step 5: a WAL record `[110, 149)` arrives (`walEnd = 110+39-14 = 135`). -/
def exS5 : ProxyState := applyRecvWal exS4 110 39

/-- Step 6: the write to peer 0 completes. -/
def exS6 : ProxyState := applySendComplete exS5 0

/-- Step 7: peer 0 acks LSN 135; feedback is sent and the record pruned. -/
def exS7 : ProxyState := applyRecvAck 1 1 exS6 0 0 135

theorem exGReach : GReach 1 1 exS7 := by
  have h1 : GStep 1 1 exS0 exS1 :=
    GStep.reset exS0 0 SKState.SS_HANDSHAKE (by decide) (Or.inr (Or.inr rfl))
  have h2 : GStep 1 1 exS1 exS2 :=
    GStep.handshake exS1 0 100 (by decide) (by decide) (by decide)
  have h3 : GStep 1 1 exS2 exS3 := GStep.startVote exS2 0 (by decide) (by decide)
  have h4 : GStep 1 1 exS3 exS4 := GStep.verdict exS3 0 (by decide) (by decide)
  have h5 : GStep 1 1 exS4 exS5 := GStep.recvWal exS4 110 39
  have h6 : GStep 1 1 exS5 exS6 := GStep.sendComplete exS5 0 (by decide) (by decide)
  have h7 : GStep 1 1 exS6 exS7 :=
    GStep.recvAck exS6 0 0 135 (by decide) (by decide) (by decide) (by decide) (by decide)
  exact Relation.ReflTransGen.head h1 (Relation.ReflTransGen.head h2
    (Relation.ReflTransGen.head h3 (Relation.ReflTransGen.head h4
      (Relation.ReflTransGen.head h5 (Relation.ReflTransGen.head h6
        (Relation.ReflTransGen.single h7))))))

/-- C5 witness input: in the trace above the record with `walEnd = 135` is
pruned (`queueHead = 1`), and the single peer (= quorum) has `ackPos ≥ 135`. -/
theorem pruned_implies_quorum_acked_witness :
    1 ≤ (exS7.sks.map Safekeeper.ackPos).countP
      (fun a => decide ((exS7.msgs.getD 0 default).walEnd ≤ a)) :=
  pruned_implies_quorum_acked 1 1 (by decide) exS7 exGReach 0 (by decide)

/-! ## Feedback to the primary (C6) -/

theorem sentInv_feedbackStep {quorum : Nat} {s : ProxyState}
    (h : List.Pairwise (· < ·) s.sentLsns ∧ ∀ x ∈ s.sentLsns, x ≤ s.lastAck) :
    List.Pairwise (· < ·) (feedbackStep quorum s).sentLsns ∧
      ∀ x ∈ (feedbackStep quorum s).sentLsns, x ≤ (feedbackStep quorum s).lastAck := by
  obtain ⟨hp, hb⟩ := h
  unfold feedbackStep
  split
  · next hlt =>
    constructor
    · show List.Pairwise (· < ·) (s.sentLsns ++ [GetAckOfState quorum s])
      rw [List.pairwise_append]
      refine ⟨hp, by simp, ?_⟩
      intro a ha b hbmem
      rw [List.mem_singleton] at hbmem
      subst hbmem
      exact lt_of_le_of_lt (hb a ha) hlt
    · intro x hx
      rcases List.mem_append.mp hx with hx | hx
      · exact le_of_lt (lt_of_le_of_lt (hb x hx) hlt)
      · rw [List.mem_singleton] at hx
        subst hx
        exact Nat.le_refl _
  · exact ⟨hp, hb⟩

theorem sent_lsns_inv {N quorum : Nat} {s : ProxyState} (h : Reach N quorum s) :
    List.Pairwise (· < ·) s.sentLsns ∧ ∀ x ∈ s.sentLsns, x ≤ s.lastAck := by
  induction h with
  | refl => exact ⟨List.Pairwise.nil, fun x hx => absurd hx (List.not_mem_nil x)⟩
  | tail hab hbc ih =>
    rename_i b c
    cases hbc with
    | reset i st hi hst => exact ih
    | handshake i w hi hstate => exact ih
    | startVote i hi hstate => exact ih
    | verdict i hi hstate => exact ih
    | recvWal walPos size => exact ih
    | sendComplete i hi hstate => exact ih
    | recvAck i id lsn hi hstate hcurr =>
      exact @sentInv_feedbackStep quorum
        { b with
          sks := updSK b.sks i
            (fun sk => { sk with state := SKState.SS_IDLE, ackPos := lsn }),
          msgs := setAckBit b.msgs id i } ih

theorem HSR_sentLsns (N quorum : Nat) (t : ProxyState) :
    (HandleSafekeeperResponse N quorum t).sentLsns =
      if t.lastAck < GetAckOfState quorum t then t.sentLsns ++ [GetAckOfState quorum t]
      else t.sentLsns := by
  unfold HandleSafekeeperResponse pruneStep feedbackStep
  split <;> rfl

theorem HSR_lastAck (N quorum : Nat) (t : ProxyState) :
    (HandleSafekeeperResponse N quorum t).lastAck =
      if t.lastAck < GetAckOfState quorum t then GetAckOfState quorum t
      else t.lastAck := by
  unfold HandleSafekeeperResponse pruneStep feedbackStep
  split <;> rfl

/-- C6: feedback to the primary. (i) In every reachable state the feedback
LSNs sent so far are pairwise strictly increasing - each sent value exceeds
every previously sent one - and each was `quorum_lsn()` at its send time by
(ii): when an ack is processed, `HandleSafekeeperResponse` sends a standby
status update if and only if `quorum_lsn()` exceeds `lastAckPos`, the sent
value being the current `quorum_lsn()`, which becomes the new `lastAckPos`.
(iii) The frame `SendFeedback lsn now false` is 34 bytes: `'r'` (114),
write = flush = lsn, apply = InvalidLSN = 0, sendTime = now,
replyRequested = 0. -/
theorem feedback_strictly_increasing (N quorum : Nat) (s : ProxyState)
    (hreach : Reach N quorum s) (t : ProxyState) (lsn now : Nat) :
    List.Pairwise (· < ·) s.sentLsns ∧
    ((HandleSafekeeperResponse N quorum t).sentLsns =
      if t.lastAck < GetAckOfState quorum t then t.sentLsns ++ [GetAckOfState quorum t]
      else t.sentLsns) ∧
    ((HandleSafekeeperResponse N quorum t).lastAck =
      if t.lastAck < GetAckOfState quorum t then GetAckOfState quorum t
      else t.lastAck) ∧
    SendFeedback lsn now false =
      [114] ++ fe_sendint64 lsn ++ fe_sendint64 lsn ++ fe_sendint64 0 ++
        fe_sendint64 now ++ [0] ∧
    (SendFeedback lsn now false).length = 34 :=
  ⟨(sent_lsns_inv hreach).1, HSR_sentLsns N quorum t, HSR_lastAck N quorum t, rfl, rfl⟩

/-- C6 witness input: the trace above sent exactly `[135]`, and the concrete
frame `SendFeedback 7 5 false` is 34 bytes. -/
theorem feedback_strictly_increasing_witness :
    List.Pairwise (· < ·) exS7.sentLsns ∧ (SendFeedback 7 5 false).length = 34 := by
  have h := feedback_strictly_increasing 1 1 exS7 (greach_reach exGReach) exS7 7 5
  exact ⟨h.1, h.2.2.2.2⟩

/-! ## No catch-up hand-off (C10) -/

/-- The key invariant behind C10, for a fixed message `id` and peer `i`:
bit `i` of the message's mask is unset, peer `i` is not carrying the
message, and the message has not been pruned. -/
def NeverAcked (N id i : Nat) (u : ProxyState) : Prop :=
  WF N u ∧ id < u.msgs.length ∧
  (u.msgs.getD id default).ackMask.testBit i = false ∧
  (u.sks.getD i default).currMsg ≠ some id ∧
  u.queueHead ≤ id

theorem getD_updSK_currMsg (l : List Safekeeper) (j i : Nat)
    (f : Safekeeper → Safekeeper) (hjl : j < l.length)
    (hf : ∀ sk, (f sk).currMsg = sk.currMsg) :
    ((updSK l j f).getD i default).currMsg = (l.getD i default).currMsg := by
  by_cases hij : j = i
  · subst hij
    rw [getD_updSK_self _ _ _ hjl, hf]
  · rw [getD_updSK_ne _ _ _ _ hij]

theorem neverAcked_step {N quorum id i : Nat} {u v : ProxyState}
    (hna : NeverAcked N id i u) (hi : i < N) (hstep : Step N quorum u v) :
    NeverAcked N id i v := by
  obtain ⟨hwf, hidlen, hmask, hcmi, hqh⟩ := hna
  have hwf' := hstep.wf hwf
  obtain ⟨hlen, hqhwf, hcm⟩ := hwf
  cases hstep with
  | reset j st hj hst =>
    refine ⟨hwf', hidlen, hmask, ?_, hqh⟩
    show ((updSK u.sks j (fun sk => { sk with state := st })).getD i default).currMsg ≠
      some id
    rw [getD_updSK_currMsg u.sks j i (fun sk => { sk with state := st })
      (by rw [hlen]; exact hj) (fun sk => rfl)]
    exact hcmi
  | handshake j w hj hstate =>
    refine ⟨hwf', hidlen, hmask, ?_, hqh⟩
    show ((updSK u.sks j
        (fun sk => { sk with state := SKState.SS_VOTE, ackPos := w })).getD
        i default).currMsg ≠ some id
    rw [getD_updSK_currMsg u.sks j i
      (fun sk => { sk with state := SKState.SS_VOTE, ackPos := w })
      (by rw [hlen]; exact hj) (fun sk => rfl)]
    exact hcmi
  | startVote j hj hstate =>
    refine ⟨hwf', hidlen, hmask, ?_, hqh⟩
    show ((updSK u.sks j
        (fun sk => { sk with state := SKState.SS_WAIT_VERDICT })).getD
        i default).currMsg ≠ some id
    rw [getD_updSK_currMsg u.sks j i
      (fun sk => { sk with state := SKState.SS_WAIT_VERDICT })
      (by rw [hlen]; exact hj) (fun sk => rfl)]
    exact hcmi
  | verdict j hj hstate =>
    refine ⟨hwf', hidlen, hmask, ?_, hqh⟩
    show ((updSK u.sks j
        (fun sk => { sk with state := SKState.SS_IDLE })).getD i default).currMsg ≠
      some id
    rw [getD_updSK_currMsg u.sks j i (fun sk => { sk with state := SKState.SS_IDLE })
      (by rw [hlen]; exact hj) (fun sk => rfl)]
    exact hcmi
  | sendComplete j hj hstate =>
    refine ⟨hwf', hidlen, hmask, ?_, hqh⟩
    show ((updSK u.sks j
        (fun sk => { sk with state := SKState.SS_RECV_ACK })).getD i default).currMsg ≠
      some id
    rw [getD_updSK_currMsg u.sks j i
      (fun sk => { sk with state := SKState.SS_RECV_ACK })
      (by rw [hlen]; exact hj) (fun sk => rfl)]
    exact hcmi
  | recvWal walPos size =>
    refine ⟨hwf', ?_, ?_, ?_, hqh⟩
    · show id < (u.msgs ++ [_]).length
      rw [List.length_append]
      omega
    · show ((u.msgs ++
        [(⟨walPos, size, walPos + size - XLOG_HDR_SIZE, 0⟩ : WalMessage)]).getD
          id default).ackMask.testBit i = false
      rw [List.getD_append _ _ _ _ hidlen]
      exact hmask
    · show ((BroadcastMessageHandoff u.msgs.length u.sks).getD i default).currMsg ≠
        some id
      rw [BroadcastMessageHandoff, getD_map_handoff]
      unfold handoffToPeer
      split
      · intro he
        have : u.msgs.length = id := Option.some.inj he
        omega
      · exact hcmi
  | recvAck j id' lsn hj hstate hcurr =>
    have hji_or : j = i → id' ≠ id := by
      intro hji hid'
      subst hji hid'
      exact hcmi hcurr
    have hmask' : ((setAckBit u.msgs id' j).getD id default).ackMask.testBit i =
        false := by
      by_cases hide : id' = id
      · subst hide
        have hjne : j ≠ i := fun hji => hji_or hji rfl
        have hid'len : id' < u.msgs.length := hidlen
        rw [setAckBit, getD_set_self _ _ _ _ hid'len]
        show ((u.msgs.getD id' default).ackMask ||| 2 ^ j).testBit i = false
        rw [testBit_or_two_pow, hmask]
        simp
        omega
      · rw [setAckBit, getD_set_ne _ _ _ _ _ hide]
        exact hmask
    have hlen2 : (setAckBit u.msgs id' j).length = u.msgs.length := by
      rw [setAckBit, List.length_set]
    refine ⟨hwf', ?_, ?_, ?_, ?_⟩
    · show id < (applyRecvAck N quorum u j id' lsn).msgs.length
      rw [applyRecvAck_msgs, hlen2]
      exact hidlen
    · show ((applyRecvAck N quorum u j id' lsn).msgs.getD id default).ackMask.testBit
        i = false
      rw [applyRecvAck_msgs]
      exact hmask'
    · show ((applyRecvAck N quorum u j id' lsn).sks.getD i default).currMsg ≠ some id
      rw [applyRecvAck_sks]
      rw [getD_updSK_currMsg u.sks j i
        (fun sk => { sk with state := SKState.SS_IDLE, ackPos := lsn })
        (by rw [hlen]; exact hj) (fun sk => rfl)]
      exact hcmi
    · show (HandleSafekeeperResponse N quorum
        { u with
          sks := updSK u.sks j
            (fun sk => { sk with state := SKState.SS_IDLE, ackPos := lsn }),
          msgs := setAckBit u.msgs id' j }).queueHead ≤ id
      unfold HandleSafekeeperResponse pruneStep
      rw [feedbackStep_queueHead, feedbackStep_msgs]
      show u.queueHead + pruneChain N ((setAckBit u.msgs id' j).drop u.queueHead) ≤ id
      by_contra hgt
      push_neg at hgt
      have hlt : id - u.queueHead <
          pruneChain N ((setAckBit u.msgs id' j).drop u.queueHead) := by omega
      have hfull := pruneChain_full N _ _ hlt
      rw [getD_drop, show u.queueHead + (id - u.queueHead) = id by omega] at hfull
      have hcontra : ((setAckBit u.msgs id' j).getD id default).ackMask.testBit i =
          true := by
        rw [hfull, Nat.testBit_two_pow_sub_one]
        simpa using hi
      rw [hmask'] at hcontra
      exact Bool.noConfusion hcontra

/-- C10: a WAL message broadcast while peer `i` is not in `SS_IDLE` is never
handed to peer `i` later, so bit `i` of its ack mask is never set, its mask
never reaches the full-mask pruning condition, and the message is never
pruned from the queue. -/
theorem no_catchup_never_pruned (N quorum : Nat) (s t : ProxyState)
    (i walPos size : Nat) (hreach : Reach N quorum s) (hi : i < N)
    (hbusy : (s.sks.getD i default).state ≠ SKState.SS_IDLE)
    (hrest : Relation.ReflTransGen (Step N quorum) (applyRecvWal s walPos size) t) :
    (t.msgs.getD s.msgs.length default).ackMask.testBit i = false ∧
    (t.msgs.getD s.msgs.length default).ackMask ≠ 2 ^ N - 1 ∧
    t.queueHead ≤ s.msgs.length := by
  have hwf := reach_wf hreach
  obtain ⟨hlen, hqh, hcm⟩ := hwf
  have hstart : NeverAcked N s.msgs.length i (applyRecvWal s walPos size) := by
    refine ⟨(@Step.recvWal N quorum s walPos size).wf ⟨hlen, hqh, hcm⟩, ?_, ?_, ?_, hqh⟩
    · show s.msgs.length < (s.msgs ++ [_]).length
      rw [List.length_append, List.length_singleton]
      omega
    · show ((s.msgs ++
        [(⟨walPos, size, walPos + size - XLOG_HDR_SIZE, 0⟩ : WalMessage)]).getD
          s.msgs.length default).ackMask.testBit i = false
      rw [getD_concat_length]
      exact Nat.zero_testBit i
    · show ((BroadcastMessageHandoff s.msgs.length s.sks).getD i default).currMsg ≠
        some s.msgs.length
      rw [BroadcastMessageHandoff, getD_map_handoff]
      unfold handoffToPeer
      rw [if_neg hbusy]
      intro he
      have := hcm _ (getD_mem_of_lt _ i default (by rw [hlen]; exact hi))
        s.msgs.length he
      omega
  have hend : NeverAcked N s.msgs.length i t := by
    clear hbusy hreach hlen hqh hcm
    induction hrest with
    | refl => exact hstart
    | tail hab hbc ih => exact neverAcked_step ih hi hbc
  obtain ⟨hwf', hidlen', hmask', hcmi', hqh'⟩ := hend
  refine ⟨hmask', ?_, hqh'⟩
  intro hfull
  have : (t.msgs.getD s.msgs.length default).ackMask.testBit i = true := by
    rw [hfull, Nat.testBit_two_pow_sub_one]
    simpa using hi
  rw [hmask'] at this
  exact Bool.noConfusion this

/-- C10 witness input: `N = quorum = 1`, the message arriving at the initial
state (peer 0 still `SS_OFFLINE`). -/
theorem no_catchup_never_pruned_witness :
    ((applyRecvWal (initState 1) 100 39).msgs.getD 0 default).ackMask.testBit 0 =
      false ∧
    ((applyRecvWal (initState 1) 100 39).msgs.getD 0 default).ackMask ≠ 2 ^ 1 - 1 ∧
    (applyRecvWal (initState 1) 100 39).queueHead ≤ 0 :=
  no_catchup_never_pruned 1 1 (initState 1) _ 0 100 39 Relation.ReflTransGen.refl
    (by decide) (by decide) Relation.ReflTransGen.refl

end SafekeeperProxy

